import Mathlib

/-!
# The test-runner configuration of `jest.config.cjs`

The repository consists of one object literal, `module.exports`, read by the
test runner.  The literal is embedded as an ordered association list from
property names to values; the claims about it are stated on that list.
-/

namespace JestConfig

/-- The values that occur in the object literal: string scalars, booleans
and arrays of strings. -/
inductive JsValue where
  | str (s : String)
  | bool (b : Bool)
  | arr (xs : List String)
  deriving DecidableEq, Repr

/-- The object literal assigned to `module.exports` in `jest.config.cjs`,
property by property in source order. -/
def moduleExports : List (String × JsValue) :=
  [ ("preset", .str "ts-jest"),
    ("testEnvironment", .str "node"),
    ("roots", .arr ["<rootDir>/src", "<rootDir>/tests"]),
    ("testMatch", .arr ["**/?(*.)+(spec|test).ts"]),
    ("moduleFileExtensions", .arr ["ts", "js", "json"]),
    ("collectCoverageFrom", .arr ["src/**/*.ts", "!src/index.ts"]),
    ("coverageDirectory", .str "coverage"),
    ("coverageReporters", .arr ["text", "lcov"]),
    ("clearMocks", .bool true) ]

/-- Property access `module.exports[k]`; `none` stands for `undefined`. -/
def getProp (k : String) : Option JsValue :=
  moduleExports.lookup k

/-- The own property names of the exported object, `Object.keys(module.exports)`. -/
def keys : List String :=
  moduleExports.map Prod.fst

/-- The array stored under `k`, or the empty list when `k` holds no array. -/
def getArr (k : String) : List String :=
  match getProp k with
  | some (.arr xs) => xs
  | _ => []

/-- The property `testMatch` of the exported object. -/
def testMatch : List String := getArr "testMatch"

/-- The property `moduleFileExtensions` of the exported object. -/
def moduleFileExtensions : List String := getArr "moduleFileExtensions"

/-- The property `collectCoverageFrom` of the exported object. -/
def collectCoverageFrom : List String := getArr "collectCoverageFrom"

/-- The property `coverageReporters` of the exported object. -/
def coverageReporters : List String := getArr "coverageReporters"

/-- The environments the runner ships with, as the claim lists them. -/
def builtinEnvironments : List String := ["node", "jsdom"]

/-- The coverage report format names the runner accepts, as the claim lists them. -/
def reporterNames : List String :=
  ["clover", "cobertura", "html", "html-spa", "json", "json-summary", "lcov",
   "lcovonly", "none", "teamcity", "text", "text-lcov", "text-summary"]

/-- The seven fields the specification enumerates. -/
def specFields : List String :=
  ["testEnvironment", "roots", "testMatch", "moduleFileExtensions",
   "collectCoverageFrom", "coverageReporters", "clearMocks"]

/-- An entry of `collectCoverageFrom` is an exclusion when it starts with `!`. -/
def isExclusion (e : String) : Bool :=
  e.toList.head? == some '!'

end JestConfig

namespace Glob

/-- Modelled from the spec: the pattern language of the external test runner,
which is not part of this repository.  The constructors are the regular
operations the clauses of the claims are read into: a literal character, one
character other than `/`, one arbitrary character, sequence, choice and
repetition. -/
inductive Rx where
  | void
  | eps
  | chr (c : Char)
  | seg
  | any
  | seq (a b : Rx)
  | alt (a b : Rx)
  | star (a : Rx)
  deriving DecidableEq, Repr

namespace Rx

/-- Modelled from the spec: `**/` is any directory prefix, that is nothing at
all or any text that ends in `/`. -/
def anyDir : Rx := alt eps (seq (star any) (chr '/'))

/-- Modelled from the spec: `*` is any run of characters other than `/`. -/
def wild : Rx := star seg

/-- Modelled from the spec: `?(X)` is zero or one `X`. -/
def opt (x : Rx) : Rx := alt eps x

/-- Modelled from the spec: `+(A|B)` is one or more of `A` or `B`. -/
def many1 (x : Rx) : Rx := seq x (star x)

/-- Whether the expression accepts the empty text. -/
def nullable : Rx → Bool
  | void => false
  | eps => true
  | chr _ => false
  | seg => false
  | any => false
  | seq a b => a.nullable && b.nullable
  | alt a b => a.nullable || b.nullable
  | star _ => true

/-- The expression that accepts what is left of an accepted text after its
first character `c`. -/
def deriv : Rx → Char → Rx
  | void, _ => void
  | eps, _ => void
  | chr d, c => if d = c then eps else void
  | seg, c => if c = '/' then void else eps
  | any, _ => eps
  | seq a b, c =>
    if a.nullable then alt (seq (a.deriv c) b) (b.deriv c) else seq (a.deriv c) b
  | alt a b, c => alt (a.deriv c) (b.deriv c)
  | star a, c => seq (a.deriv c) (star a)

/-- Modelled from the spec: whether the whole text is accepted, decided one
character at a time. -/
def rmatch (r : Rx) : List Char → Bool
  | [] => r.nullable
  | c :: cs => (r.deriv c).rmatch cs

/-- The set of texts an expression stands for. -/
def lang : Rx → Language Char
  | void => 0
  | eps => 1
  | chr c => {[c]}
  | seg => {w | ∃ c, c ≠ '/' ∧ w = [c]}
  | any => {w | ∃ c, w = [c]}
  | seq a b => a.lang * b.lang
  | alt a b => a.lang + b.lang
  | star a => KStar.kstar a.lang

end Rx

mutual

/-- Modelled from the spec: reads a run of pattern items up to the end of the
text or up to a `|` or `)` that closes a group, and returns the expression
with the unread rest.  The first argument bounds the depth of the reading. -/
def parseSeq : Nat → List Char → Option (Rx × List Char)
  | 0, _ => none
  | _ + 1, [] => some (Rx.eps, [])
  | _ + 1, ')' :: rest => some (Rx.eps, ')' :: rest)
  | _ + 1, '|' :: rest => some (Rx.eps, '|' :: rest)
  | n + 1, '*' :: '*' :: '/' :: rest =>
    (parseSeq n rest).map fun (r, out) => (Rx.seq Rx.anyDir r, out)
  | n + 1, '*' :: rest =>
    (parseSeq n rest).map fun (r, out) => (Rx.seq Rx.wild r, out)
  | n + 1, '?' :: '(' :: rest =>
    match parseAlts n rest with
    | some (x, ')' :: rest1) =>
      (parseSeq n rest1).map fun (r, out) => (Rx.seq (Rx.opt x) r, out)
    | _ => none
  | n + 1, '+' :: '(' :: rest =>
    match parseAlts n rest with
    | some (x, ')' :: rest1) =>
      (parseSeq n rest1).map fun (r, out) => (Rx.seq (Rx.many1 x) r, out)
    | _ => none
  | _ + 1, '?' :: _ => none
  | _ + 1, '(' :: _ => none
  | n + 1, c :: rest =>
    (parseSeq n rest).map fun (r, out) => (Rx.seq (Rx.chr c) r, out)

/-- Modelled from the spec: reads the alternatives of a group, separated by
`|`, up to the closing `)`. -/
def parseAlts : Nat → List Char → Option (Rx × List Char)
  | 0, _ => none
  | n + 1, cs =>
    match parseSeq n cs with
    | some (a, '|' :: rest) =>
      (parseAlts n rest).map fun (b, out) => (Rx.alt a b, out)
    | other => other

end

/-- Modelled from the spec: the expression a pattern stands for, when the
pattern uses only the constructs the claims describe. -/
def parse (pattern : List Char) : Option Rx :=
  match parseSeq (2 * pattern.length + 2) pattern with
  | some (r, []) => some r
  | _ => none

/-- Modelled from the spec: whether a text matches a pattern, both given
character by character. -/
def matchChars (pattern path : List Char) : Bool :=
  match parse pattern with
  | some r => r.rmatch path
  | none => false

/-- Modelled from the spec: whether a path matches a pattern. -/
def isMatch (pattern path : String) : Bool :=
  matchChars pattern.toList path.toList

/-- The text after the last occurrence of `c`, or the whole text when `c`
does not occur. -/
def afterLast (c : Char) (p : List Char) : List Char :=
  (p.reverse.takeWhile fun x => decide (x ≠ c)).reverse

/-- The base name of a path: what follows its last `/`. -/
def baseName (p : String) : List Char := afterLast '/' p.toList

/-- The text after the last `.` of a path. -/
def extension (p : String) : String := String.mk (afterLast '.' p.toList)

/-- The shape the claim gives to the base name of a test file: an optional
part ending in `.`, then `spec` or `test` one or more times, then `.ts`. -/
def IsTestName (b : List Char) : Prop :=
  ∃ (pre : List Char) (reps : List (List Char)),
    b = pre ++ reps.flatten ++ ".ts".toList ∧
    (pre = [] ∨ ∃ x, pre = x ++ ['.']) ∧
    reps ≠ [] ∧ ∀ r ∈ reps, r = "spec".toList ∨ r = "test".toList

/-- The expression read from a literal text followed by `r`. -/
def litThen (cs : List Char) (r : Rx) : Rx :=
  cs.foldr (fun c acc => Rx.seq (Rx.chr c) acc) r

/-- The expression read from a literal text. -/
def lit (cs : List Char) : Rx := litThen cs Rx.eps

/-- The expression of the pattern `**/?(*.)+(spec|test).ts`. -/
def testRx : Rx :=
  Rx.seq Rx.anyDir
    (Rx.seq (Rx.opt (Rx.seq Rx.wild (lit ['.'])))
      (Rx.seq (Rx.many1 (Rx.alt (lit "spec".toList) (lit "test".toList)))
        (lit ".ts".toList)))

/-- The expression of the pattern `src/**/*.ts`. -/
def srcRx : Rx :=
  litThen "src/".toList (Rx.seq Rx.anyDir (Rx.seq Rx.wild (lit ".ts".toList)))

end Glob

namespace JestConfig

/-- The reading of `collectCoverageFrom` the claim gives: a path is collected
when it matches some inclusion glob and no exclusion glob, an exclusion glob
being what follows the leading `!` of its entry. -/
def collected (p : String) : Bool :=
  (collectCoverageFrom.any fun e => !isExclusion e && Glob.isMatch e p) &&
    !(collectCoverageFrom.any fun e =>
        isExclusion e && Glob.matchChars e.toList.tail p.toList)

end JestConfig

namespace Glob

namespace Rx

theorem mem_void (w : List Char) : w ∈ void.lang ↔ False := Iff.rfl

theorem mem_eps (w : List Char) : w ∈ eps.lang ↔ w = [] := Iff.rfl

theorem mem_chr (c : Char) (w : List Char) : w ∈ (chr c).lang ↔ w = [c] := Iff.rfl

theorem mem_seg (w : List Char) : w ∈ seg.lang ↔ ∃ c, c ≠ '/' ∧ w = [c] := Iff.rfl

theorem mem_any (w : List Char) : w ∈ any.lang ↔ ∃ c, w = [c] := Iff.rfl

theorem mem_seq (a b : Rx) (w : List Char) :
    w ∈ (seq a b).lang ↔ ∃ u ∈ a.lang, ∃ v ∈ b.lang, u ++ v = w := Language.mem_mul

theorem mem_alt (a b : Rx) (w : List Char) :
    w ∈ (alt a b).lang ↔ w ∈ a.lang ∨ w ∈ b.lang := Language.mem_add _ _ _

theorem mem_star (a : Rx) (w : List Char) :
    w ∈ (star a).lang ↔ ∃ L : List (List Char), w = L.flatten ∧ ∀ y ∈ L, y ∈ a.lang :=
  Language.mem_kstar

theorem nullable_iff (r : Rx) : r.nullable = true ↔ [] ∈ r.lang := by
  induction r with
  | void => simp [nullable, mem_void]
  | eps => simp [nullable, mem_eps]
  | chr c => simp [nullable, mem_chr]
  | seg => simp [nullable, mem_seg]
  | any => simp [nullable, mem_any]
  | seq a b iha ihb =>
    simp only [nullable, Bool.and_eq_true, iha, ihb, mem_seq]
    constructor
    · rintro ⟨h1, h2⟩
      exact ⟨[], h1, [], h2, rfl⟩
    · rintro ⟨u, hu, v, hv, huv⟩
      obtain ⟨rfl, rfl⟩ := List.append_eq_nil.mp huv
      exact ⟨hu, hv⟩
  | alt a b iha ihb =>
    simp only [nullable, Bool.or_eq_true, iha, ihb, mem_alt]
  | star a _ =>
    simp only [nullable, true_iff]
    exact Language.nil_mem_kstar _

/-- A non-empty text of a repetition splits into a non-empty first round and a
rest that is again a repetition. -/
theorem cons_mem_star (a : Rx) (c : Char) (w : List Char) :
    c :: w ∈ (star a).lang ↔
      ∃ u v, w = u ++ v ∧ c :: u ∈ a.lang ∧ v ∈ (star a).lang := by
  constructor
  · intro h
    obtain ⟨L, hL, hmem⟩ := Language.mem_kstar_iff_exists_nonempty.mp h
    cases L with
    | nil => simp at hL
    | cons y L =>
      obtain ⟨hy, hne⟩ := hmem y (List.mem_cons_self _ _)
      cases y with
      | nil => exact absurd rfl hne
      | cons d u =>
        simp only [List.flatten_cons, List.cons_append, List.cons.injEq] at hL
        obtain ⟨rfl, rfl⟩ := hL
        refine ⟨u, L.flatten, rfl, hy, ?_⟩
        exact Language.join_mem_kstar fun z hz => (hmem z (List.mem_cons_of_mem _ hz)).1
  · rintro ⟨u, v, rfl, hu, hv⟩
    obtain ⟨L, rfl, hL⟩ := (mem_star a v).mp hv
    refine (mem_star a _).mpr ⟨(c :: u) :: L, by simp, ?_⟩
    intro y hy
    rcases List.mem_cons.mp hy with rfl | hy
    · exact hu
    · exact hL y hy

theorem deriv_iff (r : Rx) (c : Char) (w : List Char) :
    w ∈ (r.deriv c).lang ↔ c :: w ∈ r.lang := by
  induction r generalizing w with
  | void => simp [deriv, mem_void]
  | eps => simp [deriv, mem_void, mem_eps]
  | chr d =>
    by_cases h : d = c
    · simp [deriv, h, mem_eps, mem_chr]
    · simp [deriv, h, mem_void, mem_chr, Ne.symm h]
  | seg =>
    by_cases h : c = '/'
    · subst h
      simp only [deriv, if_true, mem_void, mem_seg, false_iff]
      rintro ⟨d, hd, hw⟩
      simp only [List.cons.injEq] at hw
      exact hd hw.1.symm
    · simp only [deriv, h, if_false, mem_eps, mem_seg]
      constructor
      · rintro rfl
        exact ⟨c, h, rfl⟩
      · rintro ⟨d, _, hw⟩
        simp only [List.cons.injEq] at hw
        exact hw.2
  | any => simp [deriv, mem_eps, mem_any]
  | seq a b iha ihb =>
    have key : c :: w ∈ (seq a b).lang ↔
        (∃ u v, w = u ++ v ∧ c :: u ∈ a.lang ∧ v ∈ b.lang) ∨
          ([] ∈ a.lang ∧ c :: w ∈ b.lang) := by
      rw [mem_seq]
      constructor
      · rintro ⟨u, hu, v, hv, huv⟩
        cases u with
        | nil =>
          simp only [List.nil_append] at huv
          subst huv
          exact Or.inr ⟨hu, hv⟩
        | cons d u =>
          simp only [List.cons_append, List.cons.injEq] at huv
          obtain ⟨rfl, rfl⟩ := huv
          exact Or.inl ⟨u, v, rfl, hu, hv⟩
      · rintro (⟨u, v, rfl, hu, hv⟩ | ⟨h1, h2⟩)
        · exact ⟨c :: u, hu, v, hv, rfl⟩
        · exact ⟨[], h1, c :: w, h2, rfl⟩
    have left : w ∈ (seq (a.deriv c) b).lang ↔
        ∃ u v, w = u ++ v ∧ c :: u ∈ a.lang ∧ v ∈ b.lang := by
      rw [mem_seq]
      constructor
      · rintro ⟨u, hu, v, hv, rfl⟩
        exact ⟨u, v, rfl, (iha u).mp hu, hv⟩
      · rintro ⟨u, v, rfl, hu, hv⟩
        exact ⟨u, (iha u).mpr hu, v, hv, rfl⟩
    rw [key]
    by_cases hn : a.nullable = true
    · simp only [deriv, hn, if_true, mem_alt, left, ihb, (nullable_iff a).mp hn, true_and]
    · have hn2 : [] ∉ a.lang := fun h => hn ((nullable_iff a).mpr h)
      rw [show (seq a b).deriv c = seq (a.deriv c) b by simp [deriv, hn], left]
      simp [hn2]
  | alt a b iha ihb => simp only [deriv, mem_alt, iha, ihb]
  | star a iha =>
    rw [cons_mem_star]
    simp only [deriv, mem_seq]
    constructor
    · rintro ⟨u, hu, v, hv, rfl⟩
      exact ⟨u, v, rfl, (iha u).mp hu, hv⟩
    · rintro ⟨u, v, rfl, hu, hv⟩
      exact ⟨u, (iha u).mpr hu, v, hv, rfl⟩

/-- The matcher accepts exactly the texts of the expression. -/
theorem rmatch_iff (r : Rx) (w : List Char) : r.rmatch w = true ↔ w ∈ r.lang := by
  induction w generalizing r with
  | nil => exact nullable_iff r
  | cons c w ih => rw [rmatch, ih, deriv_iff]

theorem mem_anyStar (w : List Char) : w ∈ (star any).lang := by
  refine (mem_star any w).mpr ⟨w.map fun c => [c], ?_, ?_⟩
  · induction w with
    | nil => rfl
    | cons c w ih => simpa using ih
  · intro y hy
    obtain ⟨c, _, rfl⟩ := List.mem_map.mp hy
    exact ⟨c, rfl⟩

/-- The texts of `**/`: nothing, or anything that ends in `/`. -/
theorem mem_anyDir (w : List Char) :
    w ∈ anyDir.lang ↔ w = [] ∨ ∃ x, w = x ++ ['/'] := by
  simp only [anyDir, mem_alt, mem_eps, mem_seq, mem_chr]
  constructor
  · rintro (h | ⟨u, _, v, rfl, rfl⟩)
    · exact Or.inl h
    · exact Or.inr ⟨u, rfl⟩
  · rintro (h | ⟨x, rfl⟩)
    · exact Or.inl h
    · exact Or.inr ⟨x, mem_anyStar x, _, rfl, rfl⟩

/-- The texts of `*`: those without a `/`. -/
theorem mem_wild (w : List Char) : w ∈ wild.lang ↔ '/' ∉ w := by
  simp only [wild, mem_star]
  constructor
  · rintro ⟨L, rfl, hL⟩ hmem
    obtain ⟨y, hy, hin⟩ := List.mem_flatten.mp hmem
    obtain ⟨c, hc, rfl⟩ := (mem_seg y).mp (hL y hy)
    exact hc (List.mem_singleton.mp hin).symm
  · intro h
    refine ⟨w.map fun c => [c], ?_, ?_⟩
    · clear h
      induction w with
      | nil => rfl
      | cons c w ih => simpa using ih
    · intro y hy
      obtain ⟨c, hc, rfl⟩ := List.mem_map.mp hy
      exact ⟨c, fun e => h (e ▸ hc), rfl⟩

theorem mem_opt (x : Rx) (w : List Char) : w ∈ (opt x).lang ↔ w = [] ∨ w ∈ x.lang := by
  simp only [opt, mem_alt, mem_eps]

/-- The texts of `+(X)`: one or more texts of `X` in a row. -/
theorem mem_many1 (x : Rx) (w : List Char) :
    w ∈ (many1 x).lang ↔
      ∃ L : List (List Char), L ≠ [] ∧ w = L.flatten ∧ ∀ y ∈ L, y ∈ x.lang := by
  simp only [many1, mem_seq, mem_star]
  constructor
  · rintro ⟨u, hu, v, ⟨L, rfl, hL⟩, rfl⟩
    refine ⟨u :: L, by simp, by simp, ?_⟩
    intro y hy
    rcases List.mem_cons.mp hy with rfl | hy
    · exact hu
    · exact hL y hy
  · rintro ⟨L, hne, rfl, hL⟩
    cases L with
    | nil => exact absurd rfl hne
    | cons u L =>
      exact ⟨u, hL u (List.mem_cons_self _ _), L.flatten,
        ⟨L, rfl, fun y hy => hL y (List.mem_cons_of_mem _ hy)⟩, by simp⟩

end Rx

theorem mem_litThen (cs : List Char) (r : Rx) (w : List Char) :
    w ∈ (litThen cs r).lang ↔ ∃ v, v ∈ r.lang ∧ w = cs ++ v := by
  induction cs generalizing w with
  | nil => simp [litThen]
  | cons c cs ih =>
    have hstep : litThen (c :: cs) r = Rx.seq (Rx.chr c) (litThen cs r) := rfl
    rw [hstep, Rx.mem_seq]
    constructor
    · rintro ⟨u, hu, v, hv, rfl⟩
      obtain ⟨t, ht, rfl⟩ := (ih v).mp hv
      rw [(Rx.mem_chr c u).mp hu]
      exact ⟨t, ht, rfl⟩
    · rintro ⟨v, hv, rfl⟩
      exact ⟨[c], rfl, cs ++ v, (ih _).mpr ⟨v, hv, rfl⟩, rfl⟩

theorem mem_lit (cs w : List Char) : w ∈ (lit cs).lang ↔ w = cs := by
  rw [lit, mem_litThen]
  constructor
  · rintro ⟨v, hv, rfl⟩
    rw [(Rx.mem_eps v).mp hv, List.append_nil]
  · rintro rfl
    exact ⟨[], rfl, by simp⟩

/-- After a part that is empty or ends in `c`, a text without `c` is what
follows the last `c`. -/
theorem afterLast_append (c : Char) (d b : List Char) (hb : c ∉ b)
    (hd : d = [] ∨ ∃ x, d = x ++ [c]) : afterLast c (d ++ b) = b := by
  have hall : ∀ x ∈ b.reverse, (decide (x ≠ c)) = true := by
    intro x hx
    have hx2 : x ∈ b := List.mem_reverse.mp hx
    exact decide_eq_true fun e => hb (e ▸ hx2)
  unfold afterLast
  rw [List.reverse_append]
  rcases hd with rfl | ⟨x, rfl⟩
  · rw [List.reverse_nil, List.append_nil, List.takeWhile_eq_self_iff.mpr hall,
      List.reverse_reverse]
  · rw [List.reverse_append, List.reverse_singleton, List.singleton_append,
      List.takeWhile_append_of_pos hall]
    simp

/-- A text is a part that is empty or ends in `c`, followed by what follows
its last `c`, and `c` does not occur in the latter. -/
theorem afterLast_split (c : Char) (p : List Char) :
    ∃ d, p = d ++ afterLast c p ∧ (d = [] ∨ ∃ x, d = x ++ [c]) ∧ c ∉ afterLast c p := by
  refine ⟨(p.reverse.dropWhile fun x => decide (x ≠ c)).reverse, ?_, ?_, ?_⟩
  · unfold afterLast
    rw [← List.reverse_append, List.takeWhile_append_dropWhile, List.reverse_reverse]
  · cases h : p.reverse.dropWhile fun x => decide (x ≠ c) with
    | nil => exact Or.inl rfl
    | cons y ys =>
      right
      have hy := List.head_dropWhile_not (fun x => decide (x ≠ c)) p.reverse
        (by rw [h]; simp)
      simp only [h, List.head_cons] at hy
      have hyc : y = c := by simpa using hy
      exact ⟨ys.reverse, by simp [hyc]⟩
  · intro hmem
    unfold afterLast at hmem
    have := List.mem_takeWhile_imp (List.mem_reverse.mp hmem)
    simp at this

theorem parse_testPattern :
    parse "**/?(*.)+(spec|test).ts".toList = some testRx := by decide

theorem parse_srcPattern : parse "src/**/*.ts".toList = some srcRx := by decide

theorem parse_indexPattern :
    parse "src/index.ts".toList = some (lit "src/index.ts".toList) := by decide

/-- The texts of `**/?(*.)+(spec|test).ts`, piece by piece. -/
theorem mem_testRx_parts (w : List Char) :
    w ∈ testRx.lang ↔
      ∃ (d pre : List Char) (reps : List (List Char)),
        w = d ++ (pre ++ reps.flatten ++ ".ts".toList) ∧
        (d = [] ∨ ∃ x, d = x ++ ['/']) ∧
        (pre = [] ∨ ∃ x, '/' ∉ x ∧ pre = x ++ ['.']) ∧
        reps ≠ [] ∧ ∀ r ∈ reps, r = "spec".toList ∨ r = "test".toList := by
  simp only [testRx, Rx.mem_seq, Rx.mem_anyDir, Rx.mem_opt, Rx.mem_many1, Rx.mem_alt,
    Rx.mem_wild, mem_lit]
  constructor
  · rintro ⟨d, hd, v1, ⟨pre, hpre, v2, ⟨m, ⟨L, hne, rfl, hL⟩, t, rfl, rfl⟩, rfl⟩, rfl⟩
    refine ⟨d, pre, L, by simp, hd, ?_, hne, hL⟩
    rcases hpre with h | ⟨x, hx, y, rfl, rfl⟩
    · exact Or.inl h
    · exact Or.inr ⟨x, hx, rfl⟩
  · rintro ⟨d, pre, L, rfl, hd, hpre, hne, hL⟩
    refine ⟨d, hd, _, ⟨pre, ?_, _, ⟨L.flatten, ⟨L, hne, rfl, hL⟩, _, rfl, rfl⟩, ?_⟩, rfl⟩
    · rcases hpre with h | ⟨x, hx, rfl⟩
      · exact Or.inl h
      · exact Or.inr ⟨x, hx, _, rfl, rfl⟩
    · simp

theorem slash_not_mem_reps (reps : List (List Char))
    (h : ∀ r ∈ reps, r = "spec".toList ∨ r = "test".toList) : '/' ∉ reps.flatten := by
  intro hmem
  obtain ⟨y, hy, hin⟩ := List.mem_flatten.mp hmem
  rcases h y hy with rfl | rfl
  · exact absurd hin (by decide)
  · exact absurd hin (by decide)

/-- The texts of `**/?(*.)+(spec|test).ts` are the paths whose base name has
the shape of a test file name. -/
theorem mem_testRx (w : List Char) :
    w ∈ testRx.lang ↔ IsTestName (afterLast '/' w) := by
  rw [mem_testRx_parts]
  constructor
  · rintro ⟨d, pre, reps, rfl, hd, hpre, hne, hreps⟩
    have hfree : '/' ∉ pre ++ reps.flatten ++ ".ts".toList := by
      intro hmem
      rcases List.mem_append.mp hmem with h1 | h3
      · rcases List.mem_append.mp h1 with h1 | h2
        · rcases hpre with rfl | ⟨x, hx, rfl⟩
          · simp at h1
          · rcases List.mem_append.mp h1 with h | h
            · exact hx h
            · exact absurd h (by decide)
        · exact slash_not_mem_reps reps hreps h2
      · exact absurd h3 (by decide)
    rw [afterLast_append '/' d _ hfree hd]
    refine ⟨pre, reps, rfl, ?_, hne, hreps⟩
    rcases hpre with h | ⟨x, _, hx⟩
    · exact Or.inl h
    · exact Or.inr ⟨x, hx⟩
  · rintro ⟨pre, reps, hb, hpre, hne, hreps⟩
    obtain ⟨d, hw, hd, hfree⟩ := afterLast_split '/' w
    refine ⟨d, pre, reps, ?_, hd, ?_, hne, hreps⟩
    · rw [← hb]
      exact hw
    · rcases hpre with h | ⟨x, rfl⟩
      · exact Or.inl h
      · refine Or.inr ⟨x, ?_, rfl⟩
        intro hx
        apply hfree
        rw [hb]
        simp [hx]

/-- Matching the test pattern, stated on the matcher. -/
theorem isMatch_testPattern (p : String) :
    isMatch "**/?(*.)+(spec|test).ts" p = true ↔ IsTestName (baseName p) := by
  unfold isMatch matchChars baseName
  rw [parse_testPattern]
  simp only []
  rw [Rx.rmatch_iff, mem_testRx]

/-- Every text of the test pattern ends in `.ts`. -/
theorem testRx_suffix (w : List Char) (h : w ∈ testRx.lang) :
    ∃ u, w = u ++ ['.'] ++ "ts".toList := by
  obtain ⟨d, pre, reps, rfl, _⟩ := (mem_testRx_parts w).mp h
  exact ⟨d ++ (pre ++ reps.flatten), by simp⟩

/-- What follows the last `.` of a text of the test pattern is `ts`. -/
theorem testRx_afterLast_dot (w : List Char) (h : w ∈ testRx.lang) :
    afterLast '.' w = "ts".toList := by
  obtain ⟨u, rfl⟩ := testRx_suffix w h
  exact afterLast_append '.' (u ++ ['.']) _ (by decide) (Or.inr ⟨u, rfl⟩)

/-- A text that starts with `src/` and ends in `.ts` ends in `.ts` after the
`src/`. -/
theorem suffix_after_src (rest : List Char)
    (h : ".ts".toList <:+ "src/".toList ++ rest) : ".ts".toList <:+ rest := by
  obtain ⟨t, ht⟩ := h
  rcases List.append_eq_append_iff.mp ht with ⟨a, ha, hb⟩ | ⟨c, _, hc⟩
  · cases a with
    | nil =>
      simp only [List.nil_append] at hb
      exact ⟨[], hb.symm ▸ rfl⟩
    | cons x a =>
      have hx : x = '.' := by
        have := congrArg List.head? hb
        simpa using this.symm
      have hmem : x ∈ "src/".toList := by
        rw [ha]
        simp
      rw [hx] at hmem
      exact absurd hmem (by decide)
  · exact ⟨c, hc.symm⟩

/-- The texts of `src/**/*.ts` are those that start with `src/` and end in
`.ts`. -/
theorem mem_srcRx (w : List Char) :
    w ∈ srcRx.lang ↔ "src/".toList <+: w ∧ ".ts".toList <:+ w := by
  simp only [srcRx, mem_litThen, Rx.mem_seq, Rx.mem_anyDir, Rx.mem_wild, mem_lit]
  constructor
  · rintro ⟨v, ⟨d, _, v1, ⟨b, _, t, rfl, rfl⟩, rfl⟩, rfl⟩
    exact ⟨⟨_, rfl⟩, ⟨"src/".toList ++ (d ++ b), by simp⟩⟩
  · rintro ⟨⟨rest, rfl⟩, hsuf⟩
    obtain ⟨r0, hr0⟩ := suffix_after_src rest hsuf
    obtain ⟨d, hsplit, hd, hfree⟩ := afterLast_split '/' r0
    refine ⟨rest, ⟨d, hd, afterLast '/' r0 ++ ".ts".toList,
      ⟨afterLast '/' r0, hfree, _, rfl, rfl⟩, ?_⟩, rfl⟩
    rw [← hr0, ← List.append_assoc, ← hsplit]

end Glob

namespace JestConfig

theorem collectCoverageFrom_eq :
    collectCoverageFrom = ["src/**/*.ts", "!src/index.ts"] := by decide

/-- The reading of `collectCoverageFrom` on its two entries. -/
theorem collected_eq (p : String) :
    collected p =
      (Glob.srcRx.rmatch p.toList && !(Glob.lit "src/index.ts".toList).rmatch p.toList) := by
  have h1 : isExclusion "src/**/*.ts" = false := by decide
  have h2 : isExclusion "!src/index.ts" = true := by decide
  have h3 : "!src/index.ts".toList.tail = "src/index.ts".toList := by decide
  unfold collected
  rw [collectCoverageFrom_eq]
  simp only [List.any_cons, List.any_nil, h1, h2, h3, Glob.isMatch, Glob.matchChars,
    Glob.parse_srcPattern, Glob.parse_indexPattern, Bool.not_false, Bool.not_true,
    Bool.true_and, Bool.false_and, Bool.or_false, Bool.false_or]

theorem isMatch_srcPattern (p : String) :
    Glob.isMatch "src/**/*.ts" p = true ↔
      "src/".toList <+: p.toList ∧ ".ts".toList <:+ p.toList := by
  unfold Glob.isMatch Glob.matchChars
  rw [Glob.parse_srcPattern]
  simp only []
  rw [Glob.Rx.rmatch_iff, Glob.mem_srcRx]

end JestConfig

namespace JestConfig

/-- C1: the property `testEnvironment` of the exported object holds a string,
and that string is one of the built-in environments `node` and `jsdom`. -/
theorem testEnvironment_builtin :
    ∃ s : String, getProp "testEnvironment" = some (JsValue.str s) ∧
      (s = "node" ∨ s = "jsdom") :=
  ⟨"node", by decide, Or.inl rfl⟩

/-- C2: every entry of `coverageReporters` is one of the accepted report
format names, the list is not empty, and no format is listed twice. -/
theorem coverageReporters_valid :
    (∀ r ∈ coverageReporters, r ∈ reporterNames) ∧
      coverageReporters ≠ [] ∧ coverageReporters.Nodup := by
  decide

/-- C3: every entry of `collectCoverageFrom` is a non-empty string that is an
inclusion glob (no leading `!`) or a `!` followed by a non-empty glob; some
entry is an inclusion glob; and every exclusion entry has an inclusion entry
before it in the sequence. -/
theorem collectCoverageFrom_wellformed :
    (∀ e ∈ collectCoverageFrom, e ≠ "" ∧
        (isExclusion e = false ∨ ∃ g : List Char, g ≠ [] ∧ e.toList = '!' :: g)) ∧
      (∃ e ∈ collectCoverageFrom, isExclusion e = false) ∧
      (∀ (i : Nat) (e : String), collectCoverageFrom[i]? = some e → isExclusion e = true →
        ∃ (j : Nat) (f : String),
          j < i ∧ collectCoverageFrom[j]? = some f ∧ isExclusion f = false) := by
  rw [collectCoverageFrom_eq]
  refine ⟨?_, ⟨"src/**/*.ts", by decide, by decide⟩, ?_⟩
  · intro e he
    rcases List.mem_cons.mp he with rfl | he
    · exact ⟨by decide, Or.inl (by decide)⟩
    · rcases List.mem_cons.mp he with rfl | he
      · exact ⟨by decide, Or.inr ⟨"src/index.ts".toList, by decide, by decide⟩⟩
      · exact absurd he (List.not_mem_nil _)
  · intro i e hi hex
    match i, hi with
    | 0, hi =>
      have he : e = "src/**/*.ts" := by simpa using hi.symm
      rw [he] at hex
      exact absurd hex (by decide)
    | 1, _ => exact ⟨0, "src/**/*.ts", by decide, by decide, by decide⟩
    | n + 2, hi => simp at hi

/-- C4, as stated, fails: `preset` is a key of the exported object and is not
one of the seven enumerated fields. -/
theorem keys_not_only_specFields :
    "preset" ∈ keys ∧ "preset" ∉ specFields ∧
      "coverageDirectory" ∈ keys ∧ "coverageDirectory" ∉ specFields := by
  decide

/-- C4, amended: each of the seven enumerated fields is a key of the exported
object, and every key of the exported object is one of these seven or one of
`preset` and `coverageDirectory`. -/
theorem keys_specFields :
    (∀ f ∈ specFields, f ∈ keys) ∧
      (∀ k ∈ keys, k ∈ specFields ∨ k = "preset" ∨ k = "coverageDirectory") := by
  decide

/-- C5: every entry of `moduleFileExtensions` is a non-empty string without a
leading `.`, no extension appears twice, and `js` is in the list. -/
theorem moduleFileExtensions_valid :
    (∀ e ∈ moduleFileExtensions, e ≠ "" ∧ e.toList.head? ≠ some '.') ∧
      moduleFileExtensions.Nodup ∧ "js" ∈ moduleFileExtensions := by
  decide

/-- C6: `testMatch` holds the single pattern `**/?(*.)+(spec|test).ts`; a
path matches it exactly when its base name is an optional part ending in `.`
followed by one or more of `spec` and `test` followed by `.ts`; the three
listed paths match and the four listed paths do not. -/
theorem testMatch_pattern :
    testMatch = ["**/?(*.)+(spec|test).ts"] ∧
      (∀ p : String, Glob.isMatch "**/?(*.)+(spec|test).ts" p = true ↔
        Glob.IsTestName (Glob.baseName p)) ∧
      Glob.isMatch "**/?(*.)+(spec|test).ts" "src/a/foo.test.ts" = true ∧
      Glob.isMatch "**/?(*.)+(spec|test).ts" "tests/foo.spec.ts" = true ∧
      Glob.isMatch "**/?(*.)+(spec|test).ts" "tests/test.ts" = true ∧
      Glob.isMatch "**/?(*.)+(spec|test).ts" "src/foo.ts" = false ∧
      Glob.isMatch "**/?(*.)+(spec|test).ts" "src/footest.ts" = false ∧
      Glob.isMatch "**/?(*.)+(spec|test).ts" "src/foo.test.tsx" = false ∧
      Glob.isMatch "**/?(*.)+(spec|test).ts" "src/foo.test.js" = false :=
  ⟨by decide, Glob.isMatch_testPattern, by decide, by decide, by decide, by decide,
    by decide, by decide, by decide⟩

/-- C7: for every path that matches some pattern of `testMatch`, the text
after the last `.` of the path is an element of `moduleFileExtensions`. -/
theorem testMatch_extension_recognised (pattern p : String)
    (hpat : pattern ∈ testMatch) (hmatch : Glob.isMatch pattern p = true) :
    Glob.extension p ∈ moduleFileExtensions := by
  have htm : testMatch = ["**/?(*.)+(spec|test).ts"] := by decide
  rw [htm] at hpat
  have hp : pattern = "**/?(*.)+(spec|test).ts" := List.mem_singleton.mp hpat
  subst hp
  unfold Glob.isMatch Glob.matchChars at hmatch
  rw [Glob.parse_testPattern] at hmatch
  have hts := Glob.testRx_afterLast_dot p.toList ((Glob.Rx.rmatch_iff _ _).mp hmatch)
  unfold Glob.extension
  rw [hts]
  decide

/-- C7 at the path `tests/foo.spec.ts`. -/
theorem testMatch_extension_recognised_witness :
    "**/?(*.)+(spec|test).ts" ∈ testMatch ∧
      Glob.isMatch "**/?(*.)+(spec|test).ts" "tests/foo.spec.ts" = true ∧
      Glob.extension "tests/foo.spec.ts" ∈ moduleFileExtensions :=
  ⟨by decide, by decide,
    testMatch_extension_recognised "**/?(*.)+(spec|test).ts" "tests/foo.spec.ts"
      (by decide) (by decide)⟩

/-- C8: reading `collectCoverageFrom` as "matches some inclusion glob and no
exclusion glob", `src/index.ts` matches `src/**/*.ts` and is not collected;
every other path is collected exactly when it matches `src/**/*.ts`, that is
when it starts with `src/` and ends in `.ts`; and no path under `tests/` is
collected. -/
theorem coverage_exclusion_minimal :
    (Glob.isMatch "src/**/*.ts" "src/index.ts" = true ∧ collected "src/index.ts" = false) ∧
      (∀ p : String, p ≠ "src/index.ts" →
        (collected p = true ↔ Glob.isMatch "src/**/*.ts" p = true)) ∧
      (∀ p : String, Glob.isMatch "src/**/*.ts" p = true ↔
        ("src/".toList <+: p.toList ∧ ".ts".toList <:+ p.toList)) ∧
      (∀ p : String, "tests/".toList <+: p.toList → collected p = false) := by
  refine ⟨⟨by decide, by decide⟩, ?_, isMatch_srcPattern, ?_⟩
  · intro p hp
    have hne : (Glob.lit "src/index.ts".toList).rmatch p.toList = false := by
      rw [Bool.eq_false_iff]
      intro h
      have hmem := (Glob.mem_lit _ _).mp ((Glob.Rx.rmatch_iff _ _).mp h)
      exact hp (String.ext hmem)
    have hsrc : Glob.isMatch "src/**/*.ts" p = Glob.srcRx.rmatch p.toList := by
      unfold Glob.isMatch Glob.matchChars
      rw [Glob.parse_srcPattern]
    rw [collected_eq, hne, hsrc]
    simp
  · intro p hp
    have hno : Glob.srcRx.rmatch p.toList = false := by
      rw [Bool.eq_false_iff]
      intro h
      obtain ⟨⟨r1, h1⟩, _⟩ := (Glob.mem_srcRx _).mp ((Glob.Rx.rmatch_iff _ _).mp h)
      obtain ⟨r2, h2⟩ := hp
      rw [← h2] at h1
      have hhead : some 's' = some 't' := congrArg List.head? h1
      exact absurd hhead (by decide)
    rw [collected_eq, hno]
    rfl

end JestConfig
